import Mathlib

/-!
Verification of the retrieval pipeline of the doctor-patient consultation
RAG chatbot: the token-aware paragraph chunker (`src/chunker.py`), the FAISS
store write path (`src/embed_and_store.py`), and the query routing, report
parsing and index loading of the chat application (`src/chatbot_app.py`).

Python strings are embedded as `List Char`; the Python string methods used
by the source (`split`, `replace`, `strip`, `lower`, the `in` operator) are
embedded below with their exact leftmost, non-overlapping semantics.
The tiktoken tokenizer is an external collaborator and is kept abstract as a
function `tok : List Char → Nat`.
-/

/-- The ASCII whitespace characters stripped by Python's `str.strip()`. -/
def isPySpace (c : Char) : Bool :=
  c == ' ' || c == '\t' || c == '\n' || c == '\r' || c == '\x0b' || c == '\x0c'

/-- Python `str.strip()`: remove leading and trailing whitespace. -/
def pyStrip (l : List Char) : List Char :=
  ((l.dropWhile isPySpace).reverse.dropWhile isPySpace).reverse

/-- The list starts with a non-whitespace character (in particular it is
nonempty). -/
def headNotWS : List Char → Bool
  | [] => false
  | c :: _ => !isPySpace c

/-- A paragraph with no leading and no trailing whitespace (hence nonempty). -/
def cleanPara (p : List Char) : Bool :=
  headNotWS p && headNotWS p.reverse

/-- Python's substring test `sub in l`. -/
def pyContains (sub : List Char) : List Char → Bool
  | [] => sub.isEmpty
  | c :: rest => List.isPrefixOf sub (c :: rest) || pyContains sub rest

/-- Python `str.lower()` (ASCII case folding, as used on ASCII queries). -/
def pyLower (l : List Char) : List Char :=
  l.map Char.toLower

/-- Fuelled worker for Python `str.split(sep)` with separator `s0 :: ss`:
split on each leftmost, non-overlapping occurrence of the separator.  The
fuel only serves to make the recursion structural (so that concrete inputs
evaluate inside the kernel); `pySplit` supplies enough fuel and the
`0` fallback is unreachable. -/
def pySplitF (s0 : Char) (ss : List Char) : Nat → List Char → List (List Char)
  | _, [] => [[]]
  | 0, l => [l]
  | f+1, c :: rest =>
    if c == s0 && List.isPrefixOf ss rest then
      [] :: pySplitF s0 ss f (List.drop ss.length rest)
    else
      match pySplitF s0 ss f rest with
      | [] => [[c]]
      | p :: ps => (c :: p) :: ps

/-- Python `l.split(s0 :: ss)` (for a nonempty separator). -/
def pySplit (s0 : Char) (ss : List Char) (l : List Char) : List (List Char) :=
  pySplitF s0 ss l.length l

/-- Fuelled worker for Python `str.replace(s0 :: ss, new)`: replace each
leftmost, non-overlapping occurrence.  Fuel as in `pySplitF`. -/
def pyReplaceF (s0 : Char) (ss new : List Char) : Nat → List Char → List Char
  | _, [] => []
  | 0, l => l
  | f+1, c :: rest =>
    if c == s0 && List.isPrefixOf ss rest then
      new ++ pyReplaceF s0 ss new f (List.drop ss.length rest)
    else
      c :: pyReplaceF s0 ss new f rest

/-- Python `l.replace(s0 :: ss, new)` (for a nonempty pattern). -/
def pyReplace (s0 : Char) (ss new l : List Char) : List Char :=
  pyReplaceF s0 ss new l.length l

/-- The paragraph separator `"\n\n"` of `chunker.py`. -/
def nn : List Char := ['\n', '\n']

/-- Python `"\n\n".join(...)`, as used for chunk context assembly; also the
inverse view of splitting on `"\n\n"`. -/
def joinNN : List (List Char) → List Char
  | [] => []
  | [p] => p
  | p :: q :: rest => p ++ nn ++ joinNN (q :: rest)

/-- One iteration of the paragraph loop of `split_text_into_chunks`
(`src/chunker.py` lines 20-29).  The state is the pair
`(current_chunk, chunks)`. -/
def chunkStep (tok : List Char → Nat) (max_tokens : Nat)
    (st : List Char × List (List Char)) (para : List Char) :
    List Char × List (List Char) :=
  let candidate := st.1 ++ nn ++ para
  if max_tokens < tok candidate then
    if st.1.isEmpty then (para, st.2) else (para, st.2 ++ [pyStrip st.1])
  else
    (candidate, st.2)

/-- The final flush of `split_text_into_chunks`
(`src/chunker.py` lines 31-32). -/
def chunkFinish (st : List Char × List (List Char)) : List (List Char) :=
  if st.1.isEmpty then st.2 else st.2 ++ [pyStrip st.1]

/-- `split_text_into_chunks(text, max_tokens)` of `src/chunker.py`:
split `text` on `"\n\n"` into paragraphs and greedily accumulate them into
chunks, flushing the accumulator whenever the token count of the candidate
(accumulator ++ `"\n\n"` ++ paragraph) exceeds `max_tokens`.  The tokenizer
`tok` abstracts `len(encoding.encode(·))` for the fixed tiktoken encoding. -/
def split_text_into_chunks (tok : List Char → Nat) (text : List Char)
    (max_tokens : Nat) : List (List Char) :=
  chunkFinish ((pySplit '\n' ['\n'] text).foldl (chunkStep tok max_tokens) ([], []))

/-- A model tokenizer (one token per character) used only to instantiate the
abstract tokenizer when evaluating the pipeline on concrete inputs. -/
def tokLen : List Char → Nat := List.length

/-!  The vector index store (`src/embed_and_store.py`).  The persisted state
is modelled as a map from index directory to the list of chunk texts stored
there (`none` = no index persisted under that directory); FAISS itself is an
external collaborator, its serialized form is irrelevant to the claims. -/

/-- The on-disk state: which chunks are persisted under which directory. -/
def FS : Type := String → Option (List (List Char))

/-- Lines 21-25 of `src/embed_and_store.py`: if a persisted index already
exists at `index_dir`, remove it entirely (`shutil.rmtree`). -/
def delete_existing_index (fs : FS) (index_dir : String) : FS :=
  if (fs index_dir).isSome then
    fun d => if d = index_dir then none else fs d
  else fs

/-- `store_in_faiss(chunks, index_dir)` of `src/embed_and_store.py`:
delete any existing index at `index_dir`, then embed the chunks and persist
them as the new index at `index_dir`. -/
def store_in_faiss (fs : FS) (chunks : List (List Char)) (index_dir : String) : FS :=
  let fs1 := delete_existing_index fs index_dir
  fun d => if d = index_dir then some chunks else fs1 d

/-!  The chat application (`src/chatbot_app.py`). -/

/-- Process-lifetime state of the app: the on-disk indexes plus the
`st.cache_resource` memo table of `load_vectorstore`, keyed by index name
(the cached value is the full result of a call, including `none`). -/
structure AppState where
  fs : FS
  cache : String → Option (Option (List (List Char)))

/-- The body of `load_vectorstore` (`src/chatbot_app.py` lines 145-158):
return `none` when no index exists under `faiss_store/<index_name>`,
otherwise the loaded index (modelled by its stored chunks). -/
def load_vectorstore (fs : FS) (index_name : String) : Option (List (List Char)) :=
  fs ("faiss_store/" ++ index_name)

/-- `load_vectorstore` as actually called, through the `@st.cache_resource`
decorator: a per-name memo for the process lifetime.  A cache hit returns the
previously loaded handle without touching the disk state. -/
def load_vectorstore_cached (st : AppState) (index_name : String) :
    Option (List (List Char)) × AppState :=
  match st.cache index_name with
  | some r => (r, st)
  | none =>
    let r := load_vectorstore st.fs index_name
    (r, ⟨st.fs, fun n => if n = index_name then some r else st.cache n⟩)

/-- Index name derivation of `process_uploaded_file`
(`src/chatbot_app.py` line 124): `name.replace('.mp3', '').replace(' ', '_')`. -/
def index_name_of (file_name : String) : String :=
  String.mk (pyReplace ' ' [] ['_'] (pyReplace '.' ("mp3".toList) [] file_name.toList))

/-- `process_uploaded_file` (`src/chatbot_app.py` lines 100-142), restricted
to its effect on the process state: chunk the (externally produced)
transcript and store the chunks under the derived index name.  Transcription
and the UI messages are external; note that the `load_vectorstore` cache is
left untouched by the source. -/
def process_uploaded_file (tok : List Char → Nat) (st : AppState)
    (transcript : List Char) (file_name : String) : AppState :=
  let chunks := split_text_into_chunks tok transcript 300
  ⟨store_in_faiss st.fs chunks ("faiss_store/" ++ index_name_of file_name), st.cache⟩

/-- The dictionary returned by `process_query`
(`"type"`, `"answer"`, `"sources"`, and for reports `"pdf_path"`). -/
structure QueryResult where
  rtype : String
  answer : List Char
  sources : List (List Char)
  pdf_path : Option String
deriving DecidableEq

/-- The external collaborators used by `process_query`: the similarity
retriever over a loaded index, the chat language model, and the RetrievalQA
chain of the chat branch. -/
structure ChatEnv where
  retrieve : List (List Char) → List Char → Nat → List (List Char)
  llm : List (String × List Char) → List Char
  qa : List (List Char) → List Char → List Char × List (List Char)

/-- The routing test of `process_query` (`src/chatbot_app.py` line 175):
`"generate report" in query.lower() or "download report" in query.lower()`. -/
def isReportQuery (query : List Char) : Bool :=
  pyContains ("generate report".toList) (pyLower query) ||
    pyContains ("download report".toList) (pyLower query)

/-- The report-mode response parsing of `process_query`
(`src/chatbot_app.py` lines 190-198), returning `(diagnosis, meds)`:
if the response contains `"Diagnosis"`, split it on `"Medications"`, delete
`"Diagnosis"` from the first part and strip it, and strip the second part if
one exists (placeholder `"Not found."` otherwise); a response without
`"Diagnosis"` is returned whole as the diagnosis. -/
def parse_report_response (response : List Char) : List Char × List Char :=
  let meds0 := "Not found.".toList
  if pyContains ("Diagnosis".toList) response then
    let parts := pySplit 'M' ("edications".toList) response
    let diagnosis := pyStrip (pyReplace 'D' ("iagnosis".toList) [] (parts.getD 0 []))
    let meds := if 1 < parts.length then pyStrip (parts.getD 1 []) else meds0
    (diagnosis, meds)
  else
    (response, meds0)

/-- The fixed retrieval query of report mode (`src/chatbot_app.py` line 176). -/
def reportRetrievalQuery : List Char :=
  "patient summary, diagnosis and medications".toList

/-- The report prompt of `process_query` (`src/chatbot_app.py` lines 178-183). -/
def reportPrompt (context : List Char) : List Char :=
  ("Based on the following doctor-patient conversation, generate:\n" ++
    "- A clear diagnosis summary\n- A list of medications prescribed\n\n" ++
    "Conversation:\n").toList ++ context ++ ("\n").toList

/-- `generate_pdf` (`src/chatbot_app.py` lines 48-77): renders the parsed
diagnosis and medications into a PDF (external renderer) and returns the
output path `rag_chatbot/patient_report.pdf`. -/
def generate_pdf (diagnosis meds : List Char) : String :=
  "rag_chatbot/patient_report.pdf"

/-- `process_query(query, index_name)` (`src/chatbot_app.py` lines 161-221):
load the index (through the cache); with no index, return the error result;
otherwise route by `isReportQuery` either to report generation (fixed
retrieval query, one model call, marker parsing, PDF handoff) or to the
RetrievalQA chat chain. -/
def process_query (env : ChatEnv) (st : AppState) (query : List Char)
    (index_name : String) : QueryResult × AppState :=
  let vsr := load_vectorstore_cached st index_name
  match vsr.1 with
  | none =>
    (⟨"error", ("❌ No index loaded. Please upload an audio file first.").toList,
      [], none⟩, vsr.2)
  | some vs =>
    if isReportQuery query then
      let chunks := env.retrieve vs reportRetrievalQuery 4
      let context := joinNN chunks
      let response := env.llm
        [("system", ("You are a medical assistant generating structured reports.").toList),
         ("human", reportPrompt context)]
      let dm := parse_report_response response
      (⟨"report", ("📄 Report generated successfully! Click below to download.").toList,
        chunks, some (generate_pdf dm.1 dm.2)⟩, vsr.2)
    else
      let res := env.qa vs query
      (⟨"chat", res.1, res.2, none⟩, vsr.2)

/-!  Concrete states and collaborator instances, used only to evaluate the
embedded functions on specific inputs. -/

/-- A concrete set of chat collaborators: the retriever returns the stored
chunks, the model and the QA chain return fixed data. -/
def envT : ChatEnv :=
  ⟨fun vs _ _ => vs,
   fun _ => ("Diagnosis: rest Medications: water").toList,
   fun vs q => (q, vs)⟩

/-- A second concrete set of chat collaborators, everywhere different from
`envT`. -/
def envT2 : ChatEnv :=
  ⟨fun _ _ _ => [], fun _ => [], fun _ _ => ([], [])⟩

/-- One stored demo chunk. -/
def demoChunks : List (List Char) :=
  [("Doctor: please rest and drink water.").toList]

/-- A process state with the index `RES0215` persisted and a cold cache. -/
def stT : AppState :=
  ⟨fun d => if d = "faiss_store/RES0215" then some demoChunks else none,
   fun _ => none⟩

/-- A process state with no persisted index and a cold cache. -/
def stEmpty : AppState :=
  ⟨fun _ => none, fun _ => none⟩

/-- Rebuild scenario, step 0: index `RES0215` holds one old chunk; the cache
is cold. -/
def c9_old : List (List Char) :=
  [("Patient reports mild fever.").toList]

/-- Rebuild scenario: the new transcript processed on re-upload. -/
def c9_transcript : List Char :=
  ("Patient reports severe cough.").toList

/-- Rebuild scenario: the chunks the re-upload stores. -/
def c9_new : List (List Char) :=
  split_text_into_chunks tokLen c9_transcript 300

/-- Rebuild scenario, step 0 state. -/
def c9_st0 : AppState :=
  ⟨fun d => if d = "faiss_store/RES0215" then some c9_old else none,
   fun _ => none⟩

/-- Rebuild scenario, step 1: one query has loaded (and cached) the index. -/
def c9_st1 : AppState :=
  (load_vectorstore_cached c9_st0 "RES0215").2

/-- Rebuild scenario, step 2: the same audio file name is re-uploaded and
re-processed, rebuilding the index under the same name. -/
def c9_st2 : AppState :=
  process_uploaded_file tokLen c9_st1 c9_transcript "RES0215.mp3"

/-!  Basic facts about the embedded Python string primitives. -/

theorem pySplitF_nil (s0 : Char) (ss : List Char) (f : Nat) :
    pySplitF s0 ss f [] = [[]] := by
  cases f <;> rfl

theorem pySplitF_succ_cons (s0 : Char) (ss : List Char) (f : Nat) (c : Char)
    (rest : List Char) :
    pySplitF s0 ss (f+1) (c :: rest) =
      if c == s0 && List.isPrefixOf ss rest then
        [] :: pySplitF s0 ss f (List.drop ss.length rest)
      else
        match pySplitF s0 ss f rest with
        | [] => [[c]]
        | p :: ps => (c :: p) :: ps := rfl

theorem pySplitF_ne_nil (s0 : Char) (ss : List Char) :
    ∀ (f : Nat) (l : List Char), pySplitF s0 ss f l ≠ [] := by
  intro f
  induction f with
  | zero =>
    intro l
    cases l with
    | nil => simp [pySplitF_nil]
    | cons c rest => simp [pySplitF]
  | succ f ih =>
    intro l
    cases l with
    | nil => simp [pySplitF_nil]
    | cons c rest =>
      rw [pySplitF_succ_cons]
      split
      · simp
      · cases h : pySplitF s0 ss f rest with
        | nil => exact absurd h (ih rest)
        | cons p ps => simp

theorem pySplitF_fuel (s0 : Char) (ss : List Char) :
    ∀ (f g : Nat) (l : List Char), l.length ≤ f → l.length ≤ g →
      pySplitF s0 ss f l = pySplitF s0 ss g l := by
  intro f
  induction f with
  | zero =>
    intro g l hf _
    have hl : l = [] := List.length_eq_zero.mp (Nat.le_zero.mp hf)
    subst hl
    rw [pySplitF_nil, pySplitF_nil]
  | succ f ih =>
    intro g l hf hg
    cases l with
    | nil => rw [pySplitF_nil, pySplitF_nil]
    | cons c rest =>
      cases g with
      | zero => simp at hg
      | succ g =>
        have hrf : rest.length ≤ f := by simpa using hf
        have hrg : rest.length ≤ g := by simpa using hg
        rw [pySplitF_succ_cons, pySplitF_succ_cons]
        split
        · rw [ih g (List.drop ss.length rest)
            (le_trans (by simp [List.length_drop]) hrf)
            (le_trans (by simp [List.length_drop]) hrg)]
        · rw [ih g rest hrf hrg]

theorem pySplit_nil (s0 : Char) (ss : List Char) : pySplit s0 ss [] = [[]] := rfl

theorem pySplit_cons (s0 : Char) (ss : List Char) (c : Char) (rest : List Char) :
    pySplit s0 ss (c :: rest) =
      if c == s0 && List.isPrefixOf ss rest then
        [] :: pySplit s0 ss (List.drop ss.length rest)
      else
        match pySplit s0 ss rest with
        | [] => [[c]]
        | p :: ps => (c :: p) :: ps := by
  show pySplitF s0 ss (rest.length + 1) (c :: rest) = _
  rw [pySplitF_succ_cons]
  split
  · rw [pySplitF_fuel s0 ss rest.length (List.drop ss.length rest).length
      (List.drop ss.length rest) (by simp [List.length_drop]) (le_refl _)]
    rfl
  · rfl

theorem pySplit_ne_nil (s0 : Char) (ss : List Char) (l : List Char) :
    pySplit s0 ss l ≠ [] :=
  pySplitF_ne_nil s0 ss l.length l

theorem prefix_of_append_of_length_le (l u v : List Char) (h : l <+: u ++ v)
    (hl : l.length ≤ u.length) : l <+: u := by
  have h1 : l = (u ++ v).take l.length := List.prefix_iff_eq_take.mp h
  rw [List.take_append_of_le_length hl] at h1
  rw [h1]
  exact List.take_prefix l.length u

theorem pySplitF_head_prefix (s0 : Char) (ss : List Char) :
    ∀ (f : Nat) (l p : List Char) (ps : List (List Char)), l.length ≤ f →
      pySplitF s0 ss f l = p :: ps → p <+: l := by
  intro f
  induction f with
  | zero =>
    intro l p ps hf he
    have hl : l = [] := List.length_eq_zero.mp (Nat.le_zero.mp hf)
    subst hl
    rw [pySplitF_nil] at he
    cases he
    exact List.nil_prefix
  | succ f ih =>
    intro l p ps hf he
    cases l with
    | nil =>
      rw [pySplitF_nil] at he
      cases he
      exact List.nil_prefix
    | cons c rest =>
      have hrf : rest.length ≤ f := by simpa using hf
      rw [pySplitF_succ_cons] at he
      by_cases h : (c == s0 && List.isPrefixOf ss rest) = true
      · rw [if_pos h] at he
        cases he
        exact List.nil_prefix
      · rw [if_neg h] at he
        cases hr : pySplitF s0 ss f rest with
        | nil => exact absurd hr (pySplitF_ne_nil s0 ss f rest)
        | cons p1 ps1 =>
          rw [hr] at he
          simp only [List.cons.injEq] at he
          obtain ⟨hp, _⟩ := he
          obtain ⟨t, rfl⟩ := ih rest p1 ps1 hrf hr
          subst hp
          exact ⟨t, rfl⟩

theorem pySplitF_not_contains (s0 : Char) (ss : List Char) :
    ∀ (f : Nat) (l : List Char), l.length ≤ f →
      ∀ p ∈ pySplitF s0 ss f l, pyContains (s0 :: ss) p = false := by
  intro f
  induction f with
  | zero =>
    intro l hf p hp
    have hl : l = [] := List.length_eq_zero.mp (Nat.le_zero.mp hf)
    subst hl
    rw [pySplitF_nil] at hp
    simp at hp
    subst hp
    rfl
  | succ f ih =>
    intro l hf p hp
    cases l with
    | nil =>
      rw [pySplitF_nil] at hp
      simp at hp
      subst hp
      rfl
    | cons c rest =>
      have hrf : rest.length ≤ f := by simpa using hf
      rw [pySplitF_succ_cons] at hp
      by_cases h : (c == s0 && List.isPrefixOf ss rest) = true
      · rw [if_pos h] at hp
        rcases List.mem_cons.mp hp with h1 | h1
        · subst h1; rfl
        · exact ih (List.drop ss.length rest)
            (le_trans (by simp [List.length_drop]) hrf) p h1
      · rw [if_neg h] at hp
        cases hr : pySplitF s0 ss f rest with
        | nil => exact absurd hr (pySplitF_ne_nil s0 ss f rest)
        | cons p1 ps1 =>
          rw [hr] at hp
          rcases List.mem_cons.mp hp with h1 | h1
          · subst h1
            rw [pyContains]
            have hp1 : pyContains (s0 :: ss) p1 = false := by
              apply ih rest hrf
              rw [hr]; exact List.mem_cons_self p1 ps1
            have hpre : List.isPrefixOf (s0 :: ss) (c :: p1) = false := by
              by_contra hx
              rw [Bool.not_eq_false] at hx
              have hx2 : (s0 == c && List.isPrefixOf ss p1) = true := hx
              rw [Bool.and_eq_true] at hx2
              obtain ⟨hs0, hssp⟩ := hx2
              have hcs0 : c = s0 := (beq_iff_eq.mp hs0).symm
              have hp1pre : p1 <+: rest :=
                pySplitF_head_prefix s0 ss f rest p1 ps1 hrf hr
              have hss : ss <+: rest :=
                (List.isPrefixOf_iff_prefix.mp hssp).trans hp1pre
              apply h
              rw [Bool.and_eq_true]
              exact ⟨beq_iff_eq.mpr hcs0, List.isPrefixOf_iff_prefix.mpr hss⟩
            rw [hpre, hp1]
            rfl
          · apply ih rest hrf
            rw [hr]; exact List.mem_cons_of_mem p1 h1

theorem pySplit_not_contains (s0 : Char) (ss : List Char) (l : List Char) :
    ∀ p ∈ pySplit s0 ss l, pyContains (s0 :: ss) p = false :=
  pySplitF_not_contains s0 ss l.length l (le_refl _)

theorem pySplit_eq_single (s0 : Char) (ss : List Char) :
    ∀ l, pyContains (s0 :: ss) l = false → pySplit s0 ss l = [l] := by
  intro l
  induction l with
  | nil => intro _; rfl
  | cons c rest ih =>
    intro h
    rw [pyContains, Bool.or_eq_false_iff] at h
    obtain ⟨h1, h2⟩ := h
    rw [pySplit_cons]
    have hcond : (c == s0 && List.isPrefixOf ss rest) = false := by
      by_contra hx
      rw [Bool.not_eq_false, Bool.and_eq_true] at hx
      obtain ⟨hc, hssr⟩ := hx
      have : List.isPrefixOf (s0 :: ss) (c :: rest) = true := by
        have : (s0 == c && List.isPrefixOf ss rest) = true := by
          rw [Bool.and_eq_true]
          exact ⟨beq_iff_eq.mpr (beq_iff_eq.mp hc).symm, hssr⟩
        exact this
      rw [this] at h1
      cases h1
    rw [hcond]
    simp only [Bool.false_eq_true, if_false]
    rw [ih h2]

theorem pySplit_sep_append (s0 : Char) (ss : List Char) :
    ∀ (p z : List Char),
      pySplit s0 ss (p ++ s0 :: ss) = [p, []] →
      pySplit s0 ss (p ++ s0 :: ss ++ z) = p :: pySplit s0 ss z := by
  intro p
  induction p with
  | nil =>
    intro z _
    simp only [List.nil_append, List.cons_append]
    rw [pySplit_cons]
    have hc : (s0 == s0 && List.isPrefixOf ss (ss ++ z)) = true := by
      rw [Bool.and_eq_true]
      exact ⟨beq_iff_eq.mpr rfl,
        List.isPrefixOf_iff_prefix.mpr (List.prefix_append ss z)⟩
    rw [if_pos hc, List.drop_left]
  | cons c p' ih =>
    intro z hp
    rw [show (c :: p') ++ s0 :: ss = c :: (p' ++ s0 :: ss) from rfl,
      pySplit_cons] at hp
    by_cases hc : (c == s0 && List.isPrefixOf ss (p' ++ s0 :: ss)) = true
    · rw [if_pos hc] at hp
      simp at hp
    · rw [if_neg hc] at hp
      cases hr : pySplit s0 ss (p' ++ s0 :: ss) with
      | nil => exact absurd hr (pySplit_ne_nil s0 ss _)
      | cons p1 ps1 =>
        rw [hr] at hp
        simp only [List.cons.injEq, true_and] at hp
        obtain ⟨hp1, hps1⟩ := hp
        have hp' : pySplit s0 ss (p' ++ s0 :: ss) = [p', []] := by
          rw [hr, hp1, hps1]
        rw [show (c :: p') ++ s0 :: ss ++ z = c :: (p' ++ s0 :: ss ++ z) from rfl,
          pySplit_cons]
        have hc2 : (c == s0 && List.isPrefixOf ss (p' ++ s0 :: ss ++ z)) = false := by
          cases hcs : (c == s0) with
          | false => rfl
          | true =>
            have hssf : List.isPrefixOf ss (p' ++ s0 :: ss) = false := by
              by_contra hx
              rw [Bool.not_eq_false] at hx
              apply hc
              rw [Bool.and_eq_true]
              exact ⟨hcs, hx⟩
            have : List.isPrefixOf ss (p' ++ s0 :: ss ++ z) = false := by
              by_contra hx
              rw [Bool.not_eq_false, List.isPrefixOf_iff_prefix] at hx
              have hlen : ss.length ≤ (p' ++ s0 :: ss).length := by
                simp [List.length_append]
                omega
              have hzassoc : p' ++ s0 :: ss ++ z = (p' ++ s0 :: ss) ++ z := by
                simp [List.append_assoc]
              rw [hzassoc] at hx
              have := prefix_of_append_of_length_le ss (p' ++ s0 :: ss) z hx hlen
              rw [List.isPrefixOf_iff_prefix.mpr this] at hssf
              cases hssf
            rw [this, Bool.and_false]
        rw [if_neg (by rw [hc2]; exact Bool.false_ne_true), ih z hp']

theorem dropWhile_eq_self_of_headNotWS (l : List Char) (h : headNotWS l = true) :
    List.dropWhile isPySpace l = l := by
  cases l with
  | nil => rfl
  | cons c cs =>
    rw [headNotWS, Bool.not_eq_true'] at h
    rw [List.dropWhile_cons, if_neg (by rw [h]; exact Bool.false_ne_true)]

theorem pyStrip_eq_self (l : List Char) (h1 : headNotWS l = true)
    (h2 : headNotWS l.reverse = true) : pyStrip l = l := by
  unfold pyStrip
  rw [dropWhile_eq_self_of_headNotWS l h1,
    dropWhile_eq_self_of_headNotWS l.reverse h2, List.reverse_reverse]

theorem pyStrip_nn_append (x : List Char) : pyStrip (nn ++ x) = pyStrip x := by
  unfold pyStrip nn
  rw [List.cons_append, List.cons_append, List.nil_append,
    List.dropWhile_cons, if_pos (by decide), List.dropWhile_cons, if_pos (by decide)]

theorem ne_nil_of_headNotWS (l : List Char) (h : headNotWS l = true) : l ≠ [] := by
  cases l with
  | nil => simp [headNotWS] at h
  | cons c cs => simp

theorem headNotWS_append (a b : List Char) (h : headNotWS a = true) :
    headNotWS (a ++ b) = true := by
  cases a with
  | nil => simp [headNotWS] at h
  | cons c cs => exact h

theorem cleanPara_head (p : List Char) (h : cleanPara p = true) :
    headNotWS p = true := by
  rw [cleanPara, Bool.and_eq_true] at h
  exact h.1

theorem cleanPara_rev (p : List Char) (h : cleanPara p = true) :
    headNotWS p.reverse = true := by
  rw [cleanPara, Bool.and_eq_true] at h
  exact h.2

theorem cleanPara_ne_snoc_nl (p : List Char) (h : cleanPara p = true) :
    ∀ q : List Char, p ≠ q ++ ['\n'] := by
  intro q hq
  have h2 := cleanPara_rev p h
  rw [hq, List.reverse_append] at h2
  simp only [List.reverse_cons, List.reverse_nil, List.nil_append,
    List.cons_append] at h2
  rw [headNotWS] at h2
  simp [isPySpace] at h2

theorem joinNN_append_singleton (bs : List (List Char)) (p : List Char)
    (h : bs ≠ []) : joinNN (bs ++ [p]) = joinNN bs ++ nn ++ p := by
  induction bs with
  | nil => exact absurd rfl h
  | cons a bs' ih =>
    cases bs' with
    | nil => simp [joinNN]
    | cons b bs'' =>
      rw [show (a :: b :: bs'') ++ [p] = a :: ((b :: bs'') ++ [p]) from rfl]
      rw [show (b :: bs'') ++ [p] = b :: (bs'' ++ [p]) from rfl]
      rw [joinNN]
      rw [show b :: (bs'' ++ [p]) = (b :: bs'') ++ [p] from rfl]
      rw [ih (by simp), joinNN]
      simp [List.append_assoc]

theorem headNotWS_joinNN (bs : List (List Char)) (hne : bs ≠ [])
    (h : ∀ p ∈ bs, headNotWS p = true) : headNotWS (joinNN bs) = true := by
  cases bs with
  | nil => exact absurd rfl hne
  | cons a bs' =>
    cases bs' with
    | nil => exact h a (List.mem_cons_self a [])
    | cons b bs'' =>
      rw [joinNN]
      rw [List.append_assoc]
      exact headNotWS_append a _ (h a (List.mem_cons_self a _))

theorem headNotWS_rev_joinNN (bs : List (List Char)) (hne : bs ≠ [])
    (h : ∀ p ∈ bs, cleanPara p = true) : headNotWS (joinNN bs).reverse = true := by
  induction bs using List.reverseRecOn with
  | nil => exact absurd rfl hne
  | append_singleton bs' p _ =>
    cases bs' with
    | nil =>
      simp only [List.nil_append]
      exact cleanPara_rev p (h p (by simp [joinNN]))
    | cons a bs'' =>
      rw [joinNN_append_singleton (a :: bs'') p (by simp)]
      rw [List.append_assoc, List.reverse_append]
      apply headNotWS_append
      rw [List.reverse_append]
      apply headNotWS_append
      exact cleanPara_rev p (h p (by simp))

theorem pyStrip_joinNN (bs : List (List Char)) (hne : bs ≠ [])
    (h : ∀ p ∈ bs, cleanPara p = true) : pyStrip (joinNN bs) = joinNN bs :=
  pyStrip_eq_self _ (headNotWS_joinNN bs hne fun p hp => cleanPara_head p (h p hp))
    (headNotWS_rev_joinNN bs hne h)

theorem pySplit_nn_append_nn :
    ∀ p : List Char, pyContains nn p = false → (∀ q : List Char, p ≠ q ++ ['\n']) →
      pySplit '\n' ['\n'] (p ++ nn) = [p, []] := by
  intro p
  induction p with
  | nil => intro _ _; decide
  | cons c p' ih =>
    intro h1 h2
    rw [show pyContains nn (c :: p') = pyContains nn (c :: p') from rfl,
      show nn = ['\n', '\n'] from rfl, pyContains, Bool.or_eq_false_iff] at h1
    obtain ⟨h1a, h1b⟩ := h1
    rw [show (c :: p') ++ nn = c :: (p' ++ nn) from rfl, pySplit_cons]
    have hcond : (c == '\n' && List.isPrefixOf ['\n'] (p' ++ nn)) = false := by
      cases p' with
      | nil =>
        have hc : c ≠ '\n' := by
          intro hcn
          exact h2 [] (by rw [hcn]; rfl)
        rw [beq_eq_false_iff_ne.mpr hc, Bool.false_and]
      | cons d p'' =>
        cases hcn : (c == '\n') with
        | false => rw [Bool.false_and]
        | true =>
          have hdn : ('\n' == d) = false := by
            by_contra hx
            rw [Bool.not_eq_false] at hx
            have : List.isPrefixOf ['\n', '\n'] (c :: d :: p'') = true := by
              show ('\n' == c && List.isPrefixOf ['\n'] (d :: p'')) = true
              rw [Bool.and_eq_true]
              refine ⟨beq_iff_eq.mpr (beq_iff_eq.mp hcn).symm, ?_⟩
              show ('\n' == d && List.isPrefixOf [] p'') = true
              rw [Bool.and_eq_true]
              exact ⟨hx, by cases p'' <;> rfl⟩
            rw [this] at h1a
            cases h1a
          rw [Bool.true_and]
          rw [show (d :: p'') ++ nn = d :: (p'' ++ nn) from rfl]
          rw [show List.isPrefixOf ['\n'] (d :: (p'' ++ nn))
            = ('\n' == d && List.isPrefixOf [] (p'' ++ nn)) from rfl]
          rw [hdn, Bool.false_and]
    rw [if_neg (by rw [hcond]; exact Bool.false_ne_true)]
    have h2' : ∀ q : List Char, p' ≠ q ++ ['\n'] := by
      intro q hq
      exact h2 (c :: q) (by rw [hq]; rfl)
    rw [ih h1b h2']

theorem pySplit_joinNN :
    ∀ bs : List (List Char), bs ≠ [] →
      (∀ p ∈ bs, cleanPara p = true ∧ pyContains nn p = false) →
      pySplit '\n' ['\n'] (joinNN bs) = bs := by
  intro bs
  induction bs with
  | nil => intro h _; exact absurd rfl h
  | cons a bs' ih =>
    intro _ h
    obtain ⟨ha, hann⟩ := h a (List.mem_cons_self a bs')
    cases bs' with
    | nil =>
      rw [joinNN]
      exact pySplit_eq_single '\n' ['\n'] a hann
    | cons b bs'' =>
      rw [joinNN]
      have hsep : pySplit '\n' ['\n'] (a ++ '\n' :: ['\n'] ++ joinNN (b :: bs''))
          = a :: pySplit '\n' ['\n'] (joinNN (b :: bs'')) := by
        apply pySplit_sep_append
        rw [show ('\n' :: ['\n'] : List Char) = nn from rfl]
        exact pySplit_nn_append_nn a hann (cleanPara_ne_snoc_nl a ha)
      rw [show (nn : List Char) = '\n' :: ['\n'] from rfl] at *
      rw [hsep, ih (by simp) (fun p hp => h p (List.mem_cons_of_mem a hp))]

theorem chunkStep_big_empty (tok : List Char → Nat) (M : Nat) (cur : List Char)
    (chunks : List (List Char)) (para : List Char)
    (htok : M < tok (cur ++ nn ++ para)) (hemp : cur.isEmpty = true) :
    chunkStep tok M (cur, chunks) para = (para, chunks) := by
  simp only [chunkStep]
  rw [if_pos htok, if_pos hemp]

theorem chunkStep_big_nonempty (tok : List Char → Nat) (M : Nat) (cur : List Char)
    (chunks : List (List Char)) (para : List Char)
    (htok : M < tok (cur ++ nn ++ para)) (hemp : cur.isEmpty = false) :
    chunkStep tok M (cur, chunks) para = (para, chunks ++ [pyStrip cur]) := by
  simp only [chunkStep]
  rw [if_pos htok, if_neg (by rw [hemp]; exact Bool.false_ne_true)]

theorem chunkStep_small (tok : List Char → Nat) (M : Nat) (cur : List Char)
    (chunks : List (List Char)) (para : List Char)
    (htok : ¬ M < tok (cur ++ nn ++ para)) :
    chunkStep tok M (cur, chunks) para = (cur ++ nn ++ para, chunks) := by
  simp only [chunkStep]
  rw [if_neg htok]

theorem chunkFinish_empty (cur : List Char) (chunks : List (List Char))
    (hemp : cur.isEmpty = true) : chunkFinish (cur, chunks) = chunks := by
  simp only [chunkFinish]
  rw [if_pos hemp]

theorem chunkFinish_nonempty (cur : List Char) (chunks : List (List Char))
    (hemp : cur.isEmpty = false) :
    chunkFinish (cur, chunks) = chunks ++ [pyStrip cur] := by
  simp only [chunkFinish]
  rw [if_neg (by rw [hemp]; exact Bool.false_ne_true)]

theorem flush_good (tok : List Char → Nat) (M : Nat) (Q : List Char → Prop)
    (hstrip : ∀ l, tok (pyStrip l) ≤ tok l) (cur : List Char)
    (hne : cur ≠ []) (hcur : cur = [] ∨ tok cur ≤ M ∨ Q cur) :
    tok (pyStrip cur) ≤ M ∨ ∃ p, Q p ∧ pyStrip cur = pyStrip p ∧ M < tok p := by
  rcases hcur with h | h | h
  · exact absurd h hne
  · exact Or.inl (le_trans (hstrip cur) h)
  · by_cases hle : tok cur ≤ M
    · exact Or.inl (le_trans (hstrip cur) hle)
    · exact Or.inr ⟨cur, h, rfl, Nat.lt_of_not_le hle⟩

theorem chunk_loop_bound (tok : List Char → Nat) (M : Nat) (Q : List Char → Prop)
    (hstrip : ∀ l, tok (pyStrip l) ≤ tok l) :
    ∀ (paras : List (List Char)) (cur : List Char) (chunks : List (List Char)),
      (∀ p ∈ paras, Q p) →
      (cur = [] ∨ tok cur ≤ M ∨ Q cur) →
      (∀ c ∈ chunks, tok c ≤ M ∨ ∃ p, Q p ∧ c = pyStrip p ∧ M < tok p) →
      ∀ c ∈ chunkFinish (paras.foldl (chunkStep tok M) (cur, chunks)),
        tok c ≤ M ∨ ∃ p, Q p ∧ c = pyStrip p ∧ M < tok p := by
  intro paras
  induction paras with
  | nil =>
    intro cur chunks _ hcur hchunks c hc
    rw [List.foldl_nil] at hc
    cases hemp : cur.isEmpty with
    | true =>
      rw [chunkFinish_empty cur chunks hemp] at hc
      exact hchunks c hc
    | false =>
      rw [chunkFinish_nonempty cur chunks hemp] at hc
      rcases List.mem_append.mp hc with h | h
      · exact hchunks c h
      · have hceq : c = pyStrip cur := by simpa using h
        subst hceq
        have hne : cur ≠ [] := by
          intro hx; subst hx; simp at hemp
        rcases flush_good tok M Q hstrip cur hne hcur with h1 | ⟨p, hQ, he, hlt⟩
        · exact Or.inl h1
        · exact Or.inr ⟨p, hQ, he, hlt⟩
  | cons para rest ih =>
    intro cur chunks hparas hcur hchunks c hc
    rw [List.foldl_cons] at hc
    have hQpara : Q para := hparas para (List.mem_cons_self para rest)
    have hparas' : ∀ p ∈ rest, Q p :=
      fun p hp => hparas p (List.mem_cons_of_mem para hp)
    by_cases htok : M < tok (cur ++ nn ++ para)
    · cases hemp : cur.isEmpty with
      | true =>
        rw [chunkStep_big_empty tok M cur chunks para htok hemp] at hc
        exact ih para chunks hparas' (Or.inr (Or.inr hQpara)) hchunks c hc
      | false =>
        rw [chunkStep_big_nonempty tok M cur chunks para htok hemp] at hc
        apply ih para (chunks ++ [pyStrip cur]) hparas' (Or.inr (Or.inr hQpara))
          _ c hc
        intro c' hc'
        rcases List.mem_append.mp hc' with h | h
        · exact hchunks c' h
        · have hceq : c' = pyStrip cur := by simpa using h
          subst hceq
          have hne : cur ≠ [] := by
            intro hx; subst hx; simp at hemp
          exact flush_good tok M Q hstrip cur hne hcur
    · rw [chunkStep_small tok M cur chunks para htok] at hc
      exact ih (cur ++ nn ++ para) chunks hparas'
        (Or.inr (Or.inl (Nat.le_of_not_lt htok))) hchunks c hc

theorem pyStrip_block (block : List (List Char)) (cur : List Char)
    (hblock : ∀ p ∈ block, cleanPara p = true) (hne : block ≠ [])
    (hcur : cur = joinNN block ∨ cur = nn ++ joinNN block) :
    pyStrip cur = joinNN block ∧ cur ≠ [] := by
  have hj : pyStrip (joinNN block) = joinNN block := pyStrip_joinNN block hne hblock
  have hjne : joinNN block ≠ [] :=
    ne_nil_of_headNotWS _ (headNotWS_joinNN block hne
      fun p hp => cleanPara_head p (hblock p hp))
  rcases hcur with h | h
  · subst h; exact ⟨hj, hjne⟩
  · subst h
    constructor
    · rw [pyStrip_nn_append, hj]
    · simp [nn]

theorem chunk_loop_recon (tok : List Char → Nat) (M : Nat) :
    ∀ paras : List (List Char),
      (∀ p ∈ paras, cleanPara p = true ∧ pyContains nn p = false) →
      ∀ (block : List (List Char)) (cur : List Char) (chunks : List (List Char)),
        (∀ p ∈ block, cleanPara p = true ∧ pyContains nn p = false) →
        ((block = [] ∧ cur = []) ∨
          (block ≠ [] ∧ (cur = joinNN block ∨ cur = nn ++ joinNN block))) →
        List.flatten (List.map (pySplit '\n' ['\n'])
            (chunkFinish (paras.foldl (chunkStep tok M) (cur, chunks))))
          = List.flatten (List.map (pySplit '\n' ['\n']) chunks) ++ block ++ paras := by
  intro paras
  induction paras with
  | nil =>
    intro _ block cur chunks hblock hrep
    rw [List.foldl_nil]
    rcases hrep with ⟨hb, hcur⟩ | ⟨hbne, hcur⟩
    · subst hb; subst hcur
      rw [chunkFinish_empty [] chunks rfl]
      simp
    · obtain ⟨hps, hcne⟩ :=
        pyStrip_block block cur (fun p hp => (hblock p hp).1) hbne hcur
      have hemp : cur.isEmpty = false := by
        cases cur with
        | nil => exact absurd rfl hcne
        | cons a b => rfl
      rw [chunkFinish_nonempty cur chunks hemp]
      rw [List.map_append, List.flatten_append]
      simp only [List.map_cons, List.map_nil, List.flatten_cons, List.flatten_nil,
        List.append_nil]
      rw [hps, pySplit_joinNN block hbne hblock]
  | cons para rest ih =>
    intro hparas block cur chunks hblock hrep
    have hpara := hparas para (List.mem_cons_self para rest)
    have hparas' : ∀ p ∈ rest, cleanPara p = true ∧ pyContains nn p = false :=
      fun p hp => hparas p (List.mem_cons_of_mem para hp)
    have hsingle : ∀ p ∈ [para], cleanPara p = true ∧ pyContains nn p = false := by
      intro p hp
      rw [List.mem_singleton] at hp
      subst hp; exact hpara
    rw [List.foldl_cons]
    by_cases htok : M < tok (cur ++ nn ++ para)
    · rcases hrep with ⟨hb, hcur⟩ | ⟨hbne, hcur⟩
      · subst hb; subst hcur
        rw [chunkStep_big_empty tok M [] chunks para htok rfl]
        rw [ih hparas' [para] para chunks hsingle
          (Or.inr ⟨by simp, Or.inl rfl⟩)]
        simp
      · obtain ⟨hps, hcne⟩ :=
          pyStrip_block block cur (fun p hp => (hblock p hp).1) hbne hcur
        have hemp : cur.isEmpty = false := by
          cases cur with
          | nil => exact absurd rfl hcne
          | cons a b => rfl
        rw [chunkStep_big_nonempty tok M cur chunks para htok hemp]
        rw [ih hparas' [para] para (chunks ++ [pyStrip cur]) hsingle
          (Or.inr ⟨by simp, Or.inl rfl⟩)]
        rw [List.map_append, List.flatten_append]
        simp only [List.map_cons, List.map_nil, List.flatten_cons, List.flatten_nil,
          List.append_nil]
        rw [hps, pySplit_joinNN block hbne hblock]
        simp
    · rw [chunkStep_small tok M cur chunks para htok]
      have hblock' : ∀ p ∈ block ++ [para],
          cleanPara p = true ∧ pyContains nn p = false := by
        intro p hp
        rcases List.mem_append.mp hp with h | h
        · exact hblock p h
        · rw [List.mem_singleton] at h
          subst h; exact hpara
      have hrep' : (block ++ [para] = [] ∧ cur ++ nn ++ para = []) ∨
          (block ++ [para] ≠ [] ∧
            (cur ++ nn ++ para = joinNN (block ++ [para]) ∨
              cur ++ nn ++ para = nn ++ joinNN (block ++ [para]))) := by
        rcases hrep with ⟨hb, hcur⟩ | ⟨hbne, hcur⟩
        · subst hb; subst hcur
          refine Or.inr ⟨by simp, Or.inr ?_⟩
          rw [List.nil_append]
          rw [show joinNN ([] ++ [para]) = para from rfl]
        · refine Or.inr ⟨by simp, ?_⟩
          rcases hcur with h | h
          · subst h
            exact Or.inl (joinNN_append_singleton block para hbne).symm
          · subst h
            refine Or.inr ?_
            rw [joinNN_append_singleton block para hbne]
            simp [List.append_assoc]
      rw [ih hparas' (block ++ [para]) (cur ++ nn ++ para) chunks hblock' hrep']
      simp [List.append_assoc]

theorem tokLen_pyStrip (l : List Char) : tokLen (pyStrip l) ≤ tokLen l := by
  show (((l.dropWhile isPySpace).reverse.dropWhile isPySpace).reverse).length
    ≤ l.length
  rw [List.length_reverse]
  apply le_trans (List.dropWhile_suffix isPySpace).length_le
  rw [List.length_reverse]
  exact (List.dropWhile_suffix isPySpace).length_le

/-- Claim C1: for every text and budget `M > 0`, under a tokenizer that never
counts more tokens after stripping whitespace, every chunk returned by
`split_text_into_chunks` has token count at most `M`, except chunks that are
a single (stripped) paragraph whose own token count exceeds `M` — such
paragraphs are emitted unsplit. -/
theorem chunker_token_bound (tok : List Char → Nat) (M : Nat) (text : List Char)
    (hM : 0 < M) (hstrip : ∀ l, tok (pyStrip l) ≤ tok l) :
    ∀ c ∈ split_text_into_chunks tok text M,
      tok c ≤ M ∨ ∃ p ∈ pySplit '\n' ['\n'] text, c = pyStrip p ∧ M < tok p := by
  intro c hc
  simp only [split_text_into_chunks] at hc
  have h := chunk_loop_bound tok M (fun p => p ∈ pySplit '\n' ['\n'] text) hstrip
    (pySplit '\n' ['\n'] text) [] [] (fun _ hp => hp) (Or.inl rfl)
    (by intro c' hc'; cases hc') c hc
  rcases h with h | ⟨p, hp, he, hlt⟩
  · exact Or.inl h
  · exact Or.inr ⟨p, hp, he, hlt⟩

/-- Witness for C1 on a concrete input: chunking `"ab\n\ncdefgh"` with budget
3 yields the chunk `"cdefgh"`, which either fits the budget or is an
oversized single paragraph (here the latter). -/
theorem chunker_token_bound_witness :
    tokLen ("cdefgh".toList) ≤ 3 ∨
      ∃ p ∈ pySplit '\n' ['\n'] ("ab\n\ncdefgh".toList),
        "cdefgh".toList = pyStrip p ∧ 3 < tokLen p :=
  chunker_token_bound tokLen 3 ("ab\n\ncdefgh".toList) (by decide) tokLen_pyStrip
    ("cdefgh".toList) (by decide)

/-- Claim C2 fails as stated: the chunker strips whitespace at chunk edges,
so re-splitting the chunks of `"a "` loses the trailing space of the
paragraph `"a "`. -/
theorem chunker_lossless_counterexample :
    List.flatten (List.map (pySplit '\n' ['\n'])
        (split_text_into_chunks tokLen ("a ".toList) 300))
      ≠ pySplit '\n' ['\n'] ("a ".toList) := by
  decide

/-- Claim C2 (amended): when every paragraph of the text is nonempty and has
no leading or trailing whitespace, splitting each returned chunk back on the
paragraph separator and concatenating in order reconstructs exactly the
original paragraph sequence — nothing is dropped, duplicated or reordered.
(In general the chunker's `strip()` drops whitespace at chunk edges.) -/
theorem chunker_reconstruct (tok : List Char → Nat) (M : Nat) (text : List Char)
    (hclean : ∀ p ∈ pySplit '\n' ['\n'] text, cleanPara p = true) :
    List.flatten (List.map (pySplit '\n' ['\n'])
        (split_text_into_chunks tok text M))
      = pySplit '\n' ['\n'] text := by
  have h : ∀ p ∈ pySplit '\n' ['\n'] text,
      cleanPara p = true ∧ pyContains nn p = false := by
    intro p hp
    exact ⟨hclean p hp, pySplit_not_contains '\n' ['\n'] text p hp⟩
  have hmain := chunk_loop_recon tok M (pySplit '\n' ['\n'] text) h [] [] []
    (by intro p hp; cases hp) (Or.inl ⟨rfl, rfl⟩)
  simp only [split_text_into_chunks]
  simpa using hmain

/-- Witness for the amended C2: chunking `"hello\n\nworld"` with budget 5
splits into two chunks whose paragraphs reassemble to the original
paragraph sequence. -/
theorem chunker_reconstruct_witness :
    List.flatten (List.map (pySplit '\n' ['\n'])
        (split_text_into_chunks tokLen ("hello\n\nworld".toList) 5))
      = pySplit '\n' ['\n'] ("hello\n\nworld".toList) :=
  chunker_reconstruct tokLen 5 ("hello\n\nworld".toList) (by decide)

/-- Claim C3 fails as stated: chunking the empty text with the default budget
300 returns `[""]` (one chunk holding the empty string), not the empty
list. -/
theorem chunker_empty_counterexample :
    split_text_into_chunks tokLen [] 300 ≠ [] := by
  decide

/-- Claim C3 (amended): on the empty text the chunker returns the one-element
list `[""]` whenever the separator `"\n\n"` itself fits in the budget
(`tok "\n\n" ≤ M`; under the real tokenizer, which encodes `"\n\n"` as one
token, that is every `M ≥ 1`), and the empty list only when
`tok "\n\n" > M`. -/
theorem chunker_empty_text (tok : List Char → Nat) (M : Nat) :
    split_text_into_chunks tok [] M = if M < tok nn then [] else [[]] := by
  simp only [split_text_into_chunks]
  rw [show pySplit '\n' ['\n'] ([] : List Char) = [[]] from rfl]
  rw [List.foldl_cons, List.foldl_nil]
  by_cases h : M < tok ([] ++ nn ++ [])
  · rw [chunkStep_big_empty tok M [] [] [] h rfl, chunkFinish_empty [] [] rfl,
      if_pos (by simpa using h)]
  · rw [chunkStep_small tok M [] [] [] h,
      chunkFinish_nonempty ([] ++ nn ++ []) [] (by decide),
      if_neg (by simpa using h)]
    decide

/-- Claim C4: `store_in_faiss` first deletes any persisted index at
`index_dir` in its entirety (the intermediate state holds nothing there), and
after the write exactly the new chunks are retrievable under `index_dir` —
none of the previously stored chunks remain unless they are among the new
ones. -/
theorem store_full_replace (fs : FS) (chunks : List (List Char))
    (index_dir : String) :
    (delete_existing_index fs index_dir) index_dir = none ∧
    ∀ c : List Char,
      (∃ stored, (store_in_faiss fs chunks index_dir) index_dir = some stored
        ∧ c ∈ stored) ↔ c ∈ chunks := by
  constructor
  · unfold delete_existing_index
    cases ho : fs index_dir with
    | none => simp [ho]
    | some v => simp [ho]
  · intro c
    unfold store_in_faiss
    simp

/-- Claim C5: with an index loaded for `name`, `process_query` routes to
report mode exactly when the lowercased query contains `"generate report"`
or `"download report"`, and to chat mode exactly otherwise. -/
theorem process_query_routing (env : ChatEnv) (st : AppState) (q : List Char)
    (name : String) (h : (load_vectorstore_cached st name).1.isSome = true) :
    (((process_query env st q name).1.rtype = "report") ↔
      (pyContains ("generate report".toList) (pyLower q)
        || pyContains ("download report".toList) (pyLower q)) = true) ∧
    (((process_query env st q name).1.rtype = "chat") ↔
      (pyContains ("generate report".toList) (pyLower q)
        || pyContains ("download report".toList) (pyLower q)) = false) := by
  have hmain : (process_query env st q name).1.rtype
      = (if isReportQuery q = true then "report" else "chat") := by
    obtain ⟨vs, hv⟩ := Option.isSome_iff_exists.mp h
    simp only [process_query]
    rw [hv]
    dsimp only
    by_cases hr : isReportQuery q = true
    · rw [if_pos hr, if_pos hr]
    · rw [if_neg hr, if_neg hr]
  by_cases hr : isReportQuery q = true
  · have h1 : (process_query env st q name).1.rtype = "report" := by
      rw [hmain, if_pos hr]
    have hor : (pyContains ("generate report".toList) (pyLower q)
        || pyContains ("download report".toList) (pyLower q)) = true := hr
    refine ⟨⟨fun _ => hor, fun _ => h1⟩, ?_, ?_⟩
    · intro hc
      exact absurd (h1.symm.trans hc) (by decide)
    · intro hf
      exact absurd (hor.symm.trans hf) (by decide)
  · have hrf : isReportQuery q = false := Bool.not_eq_true _ ▸ Bool.eq_false_iff.mpr hr
    have h1 : (process_query env st q name).1.rtype = "chat" := by
      rw [hmain, if_neg hr]
    have horf : (pyContains ("generate report".toList) (pyLower q)
        || pyContains ("download report".toList) (pyLower q)) = false := hrf
    refine ⟨⟨?_, ?_⟩, fun _ => horf, fun _ => h1⟩
    · intro hc
      exact absurd (h1.symm.trans hc) (by decide)
    · intro hf
      exact absurd (horf.symm.trans hf) (by decide)

/-- Witness for C5: `"Please GENERATE REPORT now"` routes to report mode and
`"generate a summary"` routes to chat mode, against a concrete loaded
index. -/
theorem process_query_routing_witness :
    (process_query envT stT ("Please GENERATE REPORT now".toList) "RES0215").1.rtype
      = "report" ∧
    (process_query envT stT ("generate a summary".toList) "RES0215").1.rtype
      = "chat" :=
  ⟨(process_query_routing envT stT ("Please GENERATE REPORT now".toList)
      "RES0215" (by decide)).1.mpr (by decide),
   (process_query_routing envT stT ("generate a summary".toList)
      "RES0215" (by decide)).2.mpr (by decide)⟩

/-- Claim C6 fails as stated: the parser only strips whitespace, so the colon
separators survive; the response `"Diagnosis: Flu\nMedications: Tamiflu"`
does not yield `("Flu", "Tamiflu")`. -/
theorem report_parse_example_counterexample :
    parse_report_response ("Diagnosis: Flu\nMedications: Tamiflu".toList)
      ≠ ("Flu".toList, "Tamiflu".toList) := by
  decide

/-- Claim C6 (amended): on `"Diagnosis: Flu\nMedications: Tamiflu"` the parser
yields diagnosis `": Flu"` and medications `": Tamiflu"` — the `"Diagnosis"`
marker is deleted and whitespace trimmed, but the `":"` separators are
kept. -/
theorem report_parse_example :
    parse_report_response ("Diagnosis: Flu\nMedications: Tamiflu".toList)
      = (": Flu".toList, ": Tamiflu".toList) := by
  decide

theorem pyContains_nil_sub (z : List Char) : pyContains [] z = true := by
  cases z with
  | nil => rfl
  | cons c rest =>
    rw [pyContains, show List.isPrefixOf ([] : List Char) (c :: rest) = true from rfl,
      Bool.true_or]

theorem pyContains_append_left (sub a z : List Char)
    (h : pyContains sub a = true) : pyContains sub (a ++ z) = true := by
  induction a with
  | nil =>
    have hsub : sub = [] := by
      cases sub with
      | nil => rfl
      | cons x xs => rw [pyContains] at h; simp [List.isEmpty] at h
    subst hsub
    exact pyContains_nil_sub z
  | cons c rest ih =>
    rw [pyContains, Bool.or_eq_true] at h
    rw [show (c :: rest) ++ z = c :: (rest ++ z) from rfl, pyContains,
      Bool.or_eq_true]
    rcases h with h | h
    · left
      rw [List.isPrefixOf_iff_prefix] at h ⊢
      rw [show c :: (rest ++ z) = (c :: rest) ++ z from rfl]
      exact h.trans (List.prefix_append (c :: rest) z)
    · exact Or.inr (ih h)

/-- Claim C7 fails as stated: for the response `"Diagnosis: flu"` (which lacks
the word `"Medications"`) the diagnosis field is `": flu"` — the `"Diagnosis"`
marker is deleted — not the full trimmed response. -/
theorem report_parse_no_meds_counterexample :
    pyContains ("Medications".toList) ("Diagnosis: flu".toList) = false ∧
    (parse_report_response ("Diagnosis: flu".toList)).1
      ≠ pyStrip ("Diagnosis: flu".toList) := by
  decide

/-- Claim C7 (amended): on any response that does not contain `"Medications"`
the parser degrades gracefully instead of failing: the medications field is
the placeholder `"Not found."`, and the diagnosis field is the response with
every `"Diagnosis"` occurrence deleted and whitespace trimmed when the
response contains `"Diagnosis"`, and the raw (untrimmed) response
otherwise. -/
theorem report_parse_no_meds (r : List Char)
    (h : pyContains ("Medications".toList) r = false) :
    (parse_report_response r).2 = "Not found.".toList ∧
    (parse_report_response r).1 =
      (if pyContains ("Diagnosis".toList) r = true then
        pyStrip (pyReplace 'D' ("iagnosis".toList) [] r)
      else r) := by
  have hsplit : pySplit 'M' ("edications".toList) r = [r] :=
    pySplit_eq_single 'M' ("edications".toList) r h
  simp only [parse_report_response]
  by_cases hd : pyContains ("Diagnosis".toList) r = true
  · rw [if_pos hd, if_pos hd, hsplit]
    simp
  · rw [if_neg hd, if_neg hd]
    simp

/-- Witness for the amended C7 at the concrete response `"Diagnosis flu"`. -/
theorem report_parse_no_meds_witness :
    (parse_report_response ("Diagnosis flu".toList)).2 = "Not found.".toList ∧
    (parse_report_response ("Diagnosis flu".toList)).1 =
      (if pyContains ("Diagnosis".toList) ("Diagnosis flu".toList) = true then
        pyStrip (pyReplace 'D' ("iagnosis".toList) [] ("Diagnosis flu".toList))
      else ("Diagnosis flu".toList)) :=
  report_parse_no_meds ("Diagnosis flu".toList) (by decide)

/-- Claim C8: when no index is persisted under `name` (and none is cached),
loading yields the explicit `none` result, and any query against `name`
returns the error-typed result with the user-facing "no index loaded" message
and an empty source list; the result is identical for any two collaborator
sets, so the language model is never consulted. -/
theorem query_no_index (env env2 : ChatEnv) (st : AppState) (q : List Char)
    (name : String) (hc : st.cache name = none)
    (hf : st.fs ("faiss_store/" ++ name) = none) :
    (load_vectorstore_cached st name).1 = none ∧
    (process_query env st q name).1.rtype = "error" ∧
    (process_query env st q name).1.answer =
      ("❌ No index loaded. Please upload an audio file first.").toList ∧
    (process_query env st q name).1.sources = [] ∧
    (process_query env st q name).1 = (process_query env2 st q name).1 := by
  have hload : (load_vectorstore_cached st name).1 = none := by
    simp only [load_vectorstore_cached]
    rw [hc]
    simpa [load_vectorstore] using hf
  refine ⟨hload, ?_, ?_, ?_, ?_⟩ <;>
    · simp only [process_query]
      rw [hload]

/-- Witness for C8: a query against the empty process state returns the
error result, identically for two different collaborator sets. -/
theorem query_no_index_witness :
    (load_vectorstore_cached stEmpty "RES9999").1 = none ∧
    (process_query envT stEmpty ("what happened".toList) "RES9999").1.rtype
      = "error" ∧
    (process_query envT stEmpty ("what happened".toList) "RES9999").1.answer =
      ("❌ No index loaded. Please upload an audio file first.").toList ∧
    (process_query envT stEmpty ("what happened".toList) "RES9999").1.sources
      = [] ∧
    (process_query envT stEmpty ("what happened".toList) "RES9999").1
      = (process_query envT2 stEmpty ("what happened".toList) "RES9999").1 :=
  query_no_index envT envT2 stEmpty ("what happened".toList) "RES9999"
    (by decide) (by decide)

/-- Claim C9 concerns a real bug: `process_uploaded_file` rebuilds the index
on disk but never invalidates the `st.cache_resource` cache of
`load_vectorstore`, so after a same-name rebuild the cached pre-rebuild
handle (with the old chunks) is still served, although the disk now holds the
new chunks. -/
theorem stale_cache_after_rebuild :
    (load_vectorstore_cached c9_st2 "RES0215").1 = some c9_old ∧
    c9_st2.fs "faiss_store/RES0215" = some c9_new ∧
    c9_old ≠ c9_new ∧
    (load_vectorstore_cached c9_st2 "RES0215").1 ≠ some c9_new := by
  refine ⟨by decide, by decide, by decide, by decide⟩

/-- Claim C10: when the report-mode response contains `"Diagnosis"` and two
occurrences of `"Medications"`, the split covers every occurrence: the
medications field is exactly the text strictly between the first and the
second occurrence (stripped), everything after the second occurrence is
silently dropped, and every `"Diagnosis"` occurrence in the first segment is
deleted before trimming.  The hypotheses state that `a` and `b` are the
maximal `"Medications"`-free segments (splitting `a ++ "Medications"` leaves
`a` whole). -/
theorem report_parse_two_occurrences (a b c : List Char)
    (ha : pySplit 'M' ("edications".toList) (a ++ "Medications".toList)
      = [a, []])
    (hb : pySplit 'M' ("edications".toList) (b ++ "Medications".toList)
      = [b, []])
    (hd : pyContains ("Diagnosis".toList) a = true) :
    parse_report_response
        (a ++ "Medications".toList ++ (b ++ "Medications".toList ++ c))
      = (pyStrip (pyReplace 'D' ("iagnosis".toList) [] a), pyStrip b) := by
  have hM : ("Medications".toList : List Char) = 'M' :: ("edications".toList) :=
    rfl
  have hda : pyContains ("Diagnosis".toList)
      (a ++ "Medications".toList ++ (b ++ "Medications".toList ++ c)) = true := by
    rw [List.append_assoc]
    exact pyContains_append_left ("Diagnosis".toList) a _ hd
  have hsplit : pySplit 'M' ("edications".toList)
      (a ++ "Medications".toList ++ (b ++ "Medications".toList ++ c))
      = a :: b :: pySplit 'M' ("edications".toList) c := by
    rw [hM]
    rw [pySplit_sep_append 'M' ("edications".toList) a _ (by rw [← hM]; exact ha)]
    rw [pySplit_sep_append 'M' ("edications".toList) b _ (by rw [← hM]; exact hb)]
  simp only [parse_report_response]
  rw [if_pos hda, hsplit]
  have hlen : 1 < (a :: b :: pySplit 'M' ("edications".toList) c).length := by
    simp
  rw [if_pos hlen]
  simp

/-- Witness for C10 at a concrete response with two `"Medications"`
occurrences: the text after the second occurrence is dropped and the fields
come from the first two segments. -/
theorem report_parse_two_occurrences_witness :
    parse_report_response
        (("Diagnosis: Flu\n".toList) ++ "Medications".toList ++
          ((": Tamiflu\n".toList) ++ "Medications".toList ++
            (" are taken daily.".toList)))
      = (pyStrip (pyReplace 'D' ("iagnosis".toList) [] ("Diagnosis: Flu\n".toList)),
          pyStrip (": Tamiflu\n".toList)) :=
  report_parse_two_occurrences ("Diagnosis: Flu\n".toList) (": Tamiflu\n".toList)
    (" are taken daily.".toList) (by decide) (by decide) (by decide)

/-- Witness for the amended C3 at the model tokenizer and the default
budget. -/
theorem chunker_empty_text_witness :
    split_text_into_chunks tokLen [] 300 = if 300 < tokLen nn then [] else [[]] :=
  chunker_empty_text tokLen 300

/-- Witness for C4 at a concrete store state: rebuilding `faiss_store/RES0215`
over `c9_st0` leaves exactly the new chunk list retrievable. -/
theorem store_full_replace_witness :
    (delete_existing_index c9_st0.fs "faiss_store/RES0215") "faiss_store/RES0215"
      = none ∧
    ∀ c : List Char,
      (∃ stored, (store_in_faiss c9_st0.fs c9_new "faiss_store/RES0215")
          "faiss_store/RES0215" = some stored ∧ c ∈ stored) ↔ c ∈ c9_new :=
  store_full_replace c9_st0.fs c9_new "faiss_store/RES0215"
